import Mathlib

/-!
Verification development for `fb_notif_watcher.py`, a one-shot script that
polls an IMAP inbox for unseen Facebook-notification mails, classifies each
message by a case-insensitive keyword search over its decoded subject and
body (falling back to fetching http links found in the body), forwards an
alert to Telegram for matches, flags non-matches deleted, and expunges once
at the end.

The embedding works over decoded Python strings, modelled as `List Char`.
External decoding layers (MIME header decoding, charset decoding, HTML
stripping via BeautifulSoup) are treated as already applied: a message is
given by its decoded subject header and its decoded body text, which is the
boundary at which the script's own logic starts.
-/

namespace FbWatcher

/-- Decoded Python text, modelled as a list of characters. -/
abbrev Txt := List Char

/-- Case folding of one character, modelling `re.IGNORECASE` for the
character ranges the script is used with (ASCII letters; the default Hebrew
term has no case). -/
def lowerTxt (t : Txt) : Txt := t.map Char.toLower

/-- `isPrefTxt n h` holds when `n` is an initial segment of `h`. -/
def isPrefTxt : Txt → Txt → Bool
  | [], _ => true
  | _ :: _, [] => false
  | a :: as, b :: bs => a == b && isPrefTxt as bs

/-- `containsTxt n h` holds when `n` occurs as a contiguous substring of
`h`; this is what `re.search(re.escape(term), h)` tests. -/
def containsTxt (needle : Txt) : Txt → Bool
  | [] => needle.isEmpty
  | c :: rest => isPrefTxt needle (c :: rest) || containsTxt needle rest

/-- `re.search(re.escape(term), text, re.IGNORECASE)` as the script uses it:
a case-insensitive literal-substring test. -/
def ciFind (term text : Txt) : Bool := containsTxt (lowerTxt term) (lowerTxt text)

/-- Specification-side statement that `term` occurs case-insensitively as a
literal substring of `text`. -/
def OccursCI (term text : Txt) : Prop :=
  ∃ pre post, lowerTxt text = pre ++ lowerTxt term ++ post

/-- A fetched message, after the decoding layers: the decoded `Subject`
header (`none` when the header is absent) and the decoded body text produced
by `extract_text_from_msg`. -/
structure Msg where
  subjectHdr : Option Txt
  payload : Txt
deriving DecidableEq

/-- Python's `or`-default idiom on an optional header value: the default
replaces both a missing header and an empty one. -/
def subjOrDefault (d : Txt) : Option Txt → Txt
  | none => d
  | some t => if t.isEmpty then d else t

/-- `search_space = f"..."` from `msg_matches`: decoded subject (or `""`),
a newline, then the decoded body text. -/
def searchSpace (m : Msg) : Txt :=
  subjOrDefault [] m.subjectHdr ++ '\n' :: m.payload

/-- The first phase of `msg_matches`: the set of configured terms that occur
case-insensitively in the subject-plus-body search space. -/
def matchesPhase1 (terms : List Txt) (m : Msg) : List Txt :=
  terms.filter (fun t => ciFind t (searchSpace m))

/-- Python ASCII whitespace, the complement of the regex class of non-space
characters used by the link extractor. -/
def pySpace (c : Char) : Bool :=
  c == ' ' || c == '\t' || c == '\n' || c == '\x0d' || c == '\x0b' || c == '\x0c'

/-- Drop a literal pattern from the front of the input, failing when the
input does not start with it. -/
def dropPref : Txt → Txt → Option Txt
  | [], cs => some cs
  | _ :: _, [] => none
  | p :: ps, c :: cs => if p == c then dropPref ps cs else none

/-- Match the regex `https?://\S+` at the start of `cs`, returning the
matched text and the remaining input.  The optional `s` is tried greedily
first, with backtracking, and the trailing run of non-space characters is
greedy and must be non-empty, as in the Python regex. -/
def matchUrlAt (cs : Txt) : Option (Txt × Txt) :=
  match dropPref "http".data cs with
  | none => none
  | some r1 =>
    let tryFrom : Txt → Txt → Option (Txt × Txt) := fun pre r =>
      match dropPref "://".data r with
      | none => none
      | some r2 =>
        let tail := r2.takeWhile (fun c => !pySpace c)
        if tail.isEmpty then none
        else some (pre ++ "://".data ++ tail, r2.drop tail.length)
    match r1 with
    | 's' :: r1s =>
      match tryFrom "https".data r1s with
      | some res => some res
      | none => tryFrom "http".data r1
    | _ => tryFrom "http".data r1

/-- Left-to-right non-overlapping scan of `re.findall(r"https?://\S+", ·)`.
Fuel bounds the recursion; `extract_links` supplies the input length, which
is always enough because every match consumes at least one character. -/
def scanLinksAux : Nat → Txt → List Txt
  | 0, _ => []
  | _, [] => []
  | Nat.succ fuel, c :: rest =>
    match matchUrlAt (c :: rest) with
    | some (m, r) => m :: scanLinksAux fuel r
    | none => scanLinksAux fuel rest

/-- `extract_links`: all `https?://\S+` matches of the text, in order. -/
def extract_links (t : Txt) : List Txt := scanLinksAux t.length t

/-- The link-fallback loop of `msg_matches`: for each extracted url, fetch
it (`fetch url = none` models `requests.get` raising, which the `except`
clause silently skips) and collect every configured term occurring
case-insensitively in the fetched page text. -/
def linkScan (terms : List Txt) (fetch : Txt → Option Txt) : List Txt → List Txt
  | [] => []
  | url :: rest =>
    (match fetch url with
     | none => []
     | some htmlText => terms.filter (fun t => ciFind t htmlText)) ++
    linkScan terms fetch rest

/-- `msg_matches`: terms found in subject-plus-body; when none are found,
the terms found on pages fetched from links in the body.  The Python
function accumulates into a `set` and returns `list(found)`, so the result
is duplicate-free; `dedup` models that. -/
def msg_matches (terms : List Txt) (fetch : Txt → Option Txt) (m : Msg) : List Txt :=
  let found := matchesPhase1 terms m
  (if found.isEmpty then linkScan terms fetch (extract_links m.payload) else found).dedup

/-- First text of `", ".join` applied to the match list. -/
def joinComma : List Txt → Txt
  | [] => []
  | [x] => x
  | x :: y :: rest => x ++ ", ".data ++ joinComma (y :: rest)

/-- The alert body composed in `main`: matched terms, decoded subject (or a
placeholder), and the first link of the body (or a placeholder). -/
def alertText (ms : List Txt) (m : Msg) : Txt :=
  "🔔 Facebook hit (found: ".data ++ joinComma ms ++ ")\n".data ++
  subjOrDefault "(no subject)".data m.subjectHdr ++
  '\n' :: ((extract_links m.payload).headD "(no link)".data)

/-- The body actually posted by `send_telegram`: the text sliced to its
first 4096 characters. -/
def telegramPayload (text : Txt) : Txt := text.take 4096

/-- `send_telegram`: post the truncated text; `send` reports whether the
HTTP response was a success, and `raise_for_status` turns a failure into an
exception (`Except.error`). -/
def send_telegram (send : Txt → Bool) (text : Txt) : Except Unit Unit :=
  if send (telegramPayload text) then Except.ok () else Except.error ()

/-- A mailbox message: decoded content, whether the `From` header matches
the `facebookmail.com` filter of the IMAP search, and its `Seen` and
`Deleted` flags. -/
structure MailMsg where
  content : Msg
  fromFacebook : Bool
  seen : Bool
  deleted : Bool
deriving DecidableEq

/-- Observable actions of a run.  The index in `alert`, `storeSeen` and
`storeDeleted` is the mailbox position of the message acted on (for `alert`
it is bookkeeping identifying which message the alert was composed from);
`text` is the full composed alert body before truncation. -/
inductive Event where
  | alert (i : Nat) (text : Txt)
  | storeSeen (i : Nat)
  | storeDeleted (i : Nat)
  | expunge
deriving DecidableEq

/-- The mailbox index an event acts on (`none` for the expunge). -/
def eventIdx : Event → Option Nat
  | Event.alert i _ => some i
  | Event.storeSeen i => some i
  | Event.storeDeleted i => some i
  | Event.expunge => none

/-- Result of a run: normal completion, or the uncaught exception raised by
`send_telegram` on a failed alert propagating out of `main`.  Flags set
before the failure persist on the server — including the implicit `Seen`
that the non-PEEK fetch already put on the failing message; the connection
is closed by logout, which does not expunge. -/
inductive Outcome where
  | ok (mbox : List MailMsg) (tr : List Event)
  | aborted (mbox : List MailMsg) (tr : List Event) (failedIdx : Nat)
deriving DecidableEq

/-- The IMAP search `(UNSEEN HEADER From "facebookmail.com")`: positions of
messages that are not seen and whose `From` header matches the filter. -/
def selectIdxs (mbox : List MailMsg) : List Nat :=
  (List.range mbox.length).filter (fun i =>
    match mbox.get? i with
    | some mm => !mm.seen && mm.fromFacebook
    | none => false)

/-- The per-message loop of `main`: fetch the message at each listed index,
classify it, and either alert-and-mark-seen or flag deleted.  The
`M.fetch(num, "(RFC822)")` is a non-PEEK `BODY[]` fetch, so the server
implicitly sets `Seen` on the message at fetch time (RFC 3501), before
classification: every branch below therefore carries `seen := true`.  The
alert is posted before the explicit `Seen` store, so a failed post aborts
with no store issued for that message — but the implicit `Seen` from the
fetch is already on it. -/
def runLoop (terms : List Txt) (fetch : Txt → Option Txt) (send : Txt → Bool) :
    List Nat → List MailMsg → List Event → Outcome
  | [], mbox, tr => Outcome.ok mbox tr
  | i :: rest, mbox, tr =>
    match mbox.get? i with
    | none => runLoop terms fetch send rest mbox tr
    | some mm =>
      if (msg_matches terms fetch mm.content).isEmpty then
        runLoop terms fetch send rest
          (mbox.set i { mm with seen := true, deleted := true })
          (tr ++ [Event.storeDeleted i])
      else
        match send_telegram send (alertText (msg_matches terms fetch mm.content) mm.content) with
        | Except.ok _ =>
          runLoop terms fetch send rest
            (mbox.set i { mm with seen := true })
            (tr ++ [Event.alert i (alertText (msg_matches terms fetch mm.content) mm.content),
                    Event.storeSeen i])
        | Except.error _ =>
          Outcome.aborted (mbox.set i { mm with seen := true }) tr i

/-- `main`: select the unseen Facebook messages, process each, then expunge
once, removing every message flagged `Deleted`. -/
def main (terms : List Txt) (fetch : Txt → Option Txt) (send : Txt → Bool)
    (mbox : List MailMsg) : Outcome :=
  match runLoop terms fetch send (selectIdxs mbox) mbox [] with
  | Outcome.ok mbox1 tr =>
    Outcome.ok (mbox1.filter (fun mm => !mm.deleted)) (tr ++ [Event.expunge])
  | Outcome.aborted mbox1 tr i => Outcome.aborted mbox1 tr i

/-- How one processed message ends up: the non-PEEK fetch marks it seen in
every case, and it is additionally flagged deleted when no term matched. -/
def handleMsg (terms : List Txt) (fetch : Txt → Option Txt) (mm : MailMsg) : MailMsg :=
  if (msg_matches terms fetch mm.content).isEmpty then
    { mm with seen := true, deleted := true }
  else { mm with seen := true }

/-- The events one processed message contributes to the trace. -/
def eventsFor (terms : List Txt) (fetch : Txt → Option Txt) (mbox : List MailMsg)
    (i : Nat) : List Event :=
  match mbox.get? i with
  | none => []
  | some mm =>
    if (msg_matches terms fetch mm.content).isEmpty then [Event.storeDeleted i]
    else [Event.alert i (alertText (msg_matches terms fetch mm.content) mm.content),
          Event.storeSeen i]

/-- Concatenated events of a list of processed messages. -/
def eventsAll (terms : List Txt) (fetch : Txt → Option Txt) (mbox : List MailMsg) :
    List Nat → List Event
  | [] => []
  | i :: rest => eventsFor terms fetch mbox i ++ eventsAll terms fetch mbox rest

/-- Frame relation between a message before and after a run: the content and
sender are untouched, and the two flags can only be added, never removed. -/
def flagOnly (a b : MailMsg) : Prop :=
  b.content = a.content ∧ b.fromFacebook = a.fromFacebook ∧
  (a.seen = true → b.seen = true) ∧ (a.deleted = true → b.deleted = true)

/-- Concrete message used to exercise the model: its subject matches the
default term `Moma` and its body carries one link. -/
def wMsgA : Msg :=
  { subjectHdr := some "Moma sale".data, payload := "visit http://x.com now".data }

/-- Concrete message with no matching term and no link. -/
def wMsgB : Msg := { subjectHdr := none, payload := "nothing here".data }

/-- Concrete term list used by the witnesses. -/
def wTerms : List Txt := ["Moma".data]

/-- Fetch function on which every link fetch fails. -/
def wFetch : Txt → Option Txt := fun _ => none

/-- Send function on which every alert succeeds. -/
def wSend : Txt → Bool := fun _ => true

/-- Concrete three-message mailbox: a matching unseen Facebook message, a
non-matching unseen Facebook message, and an unseen message from another
sender. -/
def wMbox : List MailMsg :=
  [ { content := wMsgA, fromFacebook := true, seen := false, deleted := false },
    { content := wMsgB, fromFacebook := true, seen := false, deleted := false },
    { content := wMsgB, fromFacebook := false, seen := false, deleted := false } ]

/-- Concrete one-message mailbox holding only the non-matching message. -/
def wMboxB : List MailMsg :=
  [ { content := wMsgB, fromFacebook := true, seen := false, deleted := false } ]

/-- Send function on which every alert fails. -/
def wSendFail : Txt → Bool := fun _ => false

/-- The concrete run of `main` on the witness mailbox. -/
def wRun : Outcome := main wTerms wFetch wSend wMbox

/-- Final mailbox of the witness run. -/
def wFinal : List MailMsg :=
  match wRun with
  | Outcome.ok f _ => f
  | Outcome.aborted f _ _ => f

/-- Trace of the witness run. -/
def wTr : List Event :=
  match wRun with
  | Outcome.ok _ t => t
  | Outcome.aborted _ t _ => t

/-- The concrete run of `main` on the witness mailbox with a failing send. -/
def wRunF : Outcome := main wTerms wFetch wSendFail wMbox

/-- Mailbox in which the failing witness run leaves the server. -/
def wFinalF : List MailMsg :=
  match wRunF with
  | Outcome.ok f _ => f
  | Outcome.aborted f _ _ => f

end FbWatcher

namespace FbWatcher

example : extract_links "visit http://x.com now".data = ["http://x.com".data] := by decide

example : ciFind "Moma".data (searchSpace wMsgA) = true := by decide

example : msg_matches wTerms wFetch wMsgA = ["Moma".data] := by decide

example : msg_matches wTerms wFetch wMsgB = [] := by decide

example : selectIdxs wMbox = [0, 1] := by decide

example : main wTerms wFetch wSend wMbox = Outcome.ok wFinal wTr := by decide

theorem isPrefTxt_iff (n h : Txt) : isPrefTxt n h = true ↔ ∃ rest, h = n ++ rest := by
  induction n generalizing h with
  | nil => simp [isPrefTxt]
  | cons a as ih =>
    cases h with
    | nil =>
      simp [isPrefTxt]
    | cons b bs =>
      simp only [isPrefTxt, Bool.and_eq_true, beq_iff_eq, ih, List.cons_append,
        List.cons.injEq]
      constructor
      · rintro ⟨rfl, rest, rfl⟩
        exact ⟨rest, rfl, rfl⟩
      · rintro ⟨rest, rfl, rfl⟩
        exact ⟨rfl, rest, rfl⟩

theorem containsTxt_iff (n h : Txt) :
    containsTxt n h = true ↔ ∃ pre post, h = pre ++ n ++ post := by
  induction h with
  | nil =>
    simp only [containsTxt, List.isEmpty_iff]
    constructor
    · rintro rfl
      exact ⟨[], [], rfl⟩
    · rintro ⟨pre, post, hp⟩
      cases pre <;> simp_all
  | cons c rest ih =>
    simp only [containsTxt, Bool.or_eq_true, isPrefTxt_iff, ih]
    constructor
    · rintro (⟨r, hr⟩ | ⟨pre, post, hp⟩)
      · exact ⟨[], r, by simpa using hr⟩
      · exact ⟨c :: pre, post, by simp [hp]⟩
    · rintro ⟨pre, post, hp⟩
      cases pre with
      | nil =>
        left
        exact ⟨post, by simpa using hp⟩
      | cons x xs =>
        right
        rw [List.cons_append, List.cons_append, List.cons.injEq] at hp
        exact ⟨xs, post, hp.2⟩

theorem ciFind_iff (t s : Txt) : ciFind t s = true ↔ OccursCI t s := by
  unfold ciFind OccursCI
  exact containsTxt_iff _ _

theorem mem_matchesPhase1 (terms : List Txt) (m : Msg) (t : Txt) :
    t ∈ matchesPhase1 terms m ↔ t ∈ terms ∧ OccursCI t (searchSpace m) := by
  simp [matchesPhase1, List.mem_filter, ciFind_iff]

theorem mem_linkScan (terms : List Txt) (fetch : Txt → Option Txt) (urls : List Txt)
    (t : Txt) :
    t ∈ linkScan terms fetch urls ↔
      ∃ u ∈ urls, ∃ page, fetch u = some page ∧ t ∈ terms ∧ ciFind t page = true := by
  induction urls with
  | nil => simp [linkScan]
  | cons u rest ih =>
    simp only [linkScan, List.mem_append, ih, List.mem_cons]
    cases hf : fetch u with
    | none =>
      simp only [List.not_mem_nil, false_or]
      constructor
      · rintro ⟨u', hu', page, hp, ht, hc⟩
        exact ⟨u', Or.inr hu', page, hp, ht, hc⟩
      · rintro ⟨u', hu' | hu', page, hp, ht, hc⟩
        · subst hu'
          rw [hf] at hp
          cases hp
        · exact ⟨u', hu', page, hp, ht, hc⟩
    | some page =>
      simp only [List.mem_filter, ciFind]
      constructor
      · rintro (⟨ht, hc⟩ | ⟨u', hu', page', hp, ht, hc⟩)
        · exact ⟨u, Or.inl rfl, page, hf, ht, hc⟩
        · exact ⟨u', Or.inr hu', page', hp, ht, hc⟩
      · rintro ⟨u', hu' | hu', page', hp, ht, hc⟩
        · subst hu'
          rw [hf] at hp
          cases hp
          exact Or.inl ⟨ht, hc⟩
        · exact Or.inr ⟨u', hu', page', hp, ht, hc⟩

theorem linkScan_eq_nil_of_fetch_none (terms : List Txt) (fetch : Txt → Option Txt)
    (urls : List Txt) (h : ∀ u, fetch u = none) :
    linkScan terms fetch urls = [] := by
  induction urls with
  | nil => rfl
  | cons u rest ih => simp [linkScan, h u, ih]

theorem get?_set_of_ne {α : Type _} (l : List α) (i j : Nat) (a : α) (h : i ≠ j) :
    (l.set i a).get? j = l.get? j := by
  induction l generalizing i j with
  | nil => simp
  | cons b t ih =>
    cases i with
    | zero =>
      cases j with
      | zero => exact absurd rfl h
      | succ j => simp [List.set]
    | succ i =>
      cases j with
      | zero => simp [List.set]
      | succ j =>
        simp only [List.set, List.get?]
        exact ih i j (fun he => h (by rw [he]))

theorem get?_set_self {α : Type _} (l : List α) (i : Nat) (a : α) (h : i < l.length) :
    (l.set i a).get? i = some a := by
  induction l generalizing i with
  | nil => simp at h
  | cons b t ih =>
    cases i with
    | zero => rfl
    | succ i =>
      simp only [List.set, List.get?]
      exact ih i (Nat.lt_of_succ_lt_succ h)

theorem get?_set_cases {α : Type _} (l : List α) (i j : Nat) (a b : α)
    (h : (l.set i a).get? j = some b) : b = a ∨ l.get? j = some b := by
  by_cases hij : i = j
  · subst hij
    by_cases hl : i < l.length
    · rw [get?_set_self l i a hl] at h
      exact Or.inl (Option.some.inj h).symm
    · right
      rw [List.set_eq_of_length_le (Nat.le_of_not_lt hl)] at h
      exact h
  · right
    rw [get?_set_of_ne l i j a hij] at h
    exact h

theorem length_set' {α : Type _} (l : List α) (i : Nat) (a : α) :
    (l.set i a).length = l.length :=
  List.length_set l i a

theorem runLoop_ok_of_all_empty (terms : List Txt) (fetch : Txt → Option Txt)
    (send : Txt → Bool) :
    ∀ (idxs : List Nat) (mbox : List MailMsg) (tr : List Event),
    (∀ j mm, mbox.get? j = some mm → (msg_matches terms fetch mm.content).isEmpty = true) →
    ∃ mbox' tr', runLoop terms fetch send idxs mbox tr = Outcome.ok mbox' tr' := by
  intro idxs
  induction idxs with
  | nil => exact fun mbox tr _ => ⟨mbox, tr, rfl⟩
  | cons i rest ih =>
    intro mbox tr h
    cases hg : mbox.get? i with
    | none =>
      have hstep : runLoop terms fetch send (i :: rest) mbox tr =
          runLoop terms fetch send rest mbox tr := by
        simp only [runLoop, hg]
      rw [hstep]
      exact ih mbox tr h
    | some mm =>
      have hm := h i mm hg
      have hstep : runLoop terms fetch send (i :: rest) mbox tr =
          runLoop terms fetch send rest
            (mbox.set i { mm with seen := true, deleted := true })
            (tr ++ [Event.storeDeleted i]) := by
        simp only [runLoop, hg, hm, if_true]
      rw [hstep]
      apply ih
      intro j mm' hj
      rcases get?_set_cases mbox i j _ mm' hj with hcase | hcase
      · subst hcase
        exact h i mm hg
      · exact h j mm' hcase

theorem lt_length_of_get?_some {α : Type _} (l : List α) (i : Nat) (a : α)
    (h : l.get? i = some a) : i < l.length := by
  by_contra hge
  rw [List.get?_eq_none.mpr (Nat.le_of_not_lt hge)] at h
  cases h

theorem mem_selectIdxs (mbox : List MailMsg) (i : Nat) :
    i ∈ selectIdxs mbox ↔
      ∃ mm, mbox.get? i = some mm ∧ mm.seen = false ∧ mm.fromFacebook = true := by
  simp only [selectIdxs, List.mem_filter, List.mem_range]
  constructor
  · rintro ⟨hlt, hp⟩
    cases hg : mbox.get? i with
    | none =>
      rw [hg] at hp
      cases hp
    | some mm =>
      rw [hg] at hp
      simp only [Bool.and_eq_true, Bool.not_eq_true'] at hp
      exact ⟨mm, rfl, hp.1, hp.2⟩
  · rintro ⟨mm, hg, hs, hf⟩
    refine ⟨lt_length_of_get?_some mbox i mm hg, ?_⟩
    rw [hg]
    simp [hs, hf]

theorem nodup_selectIdxs (mbox : List MailMsg) : (selectIdxs mbox).Nodup :=
  (List.nodup_range _).filter _

theorem isSome_of_mem_selectIdxs (mbox : List MailMsg) (i : Nat)
    (h : i ∈ selectIdxs mbox) : ∃ mm, mbox.get? i = some mm := by
  obtain ⟨mm, hg, _, _⟩ := (mem_selectIdxs mbox i).mp h
  exact ⟨mm, hg⟩

theorem eventsFor_of_none (terms : List Txt) (fetch : Txt → Option Txt)
    (mbox : List MailMsg) (i : Nat) (hg : mbox.get? i = none) :
    eventsFor terms fetch mbox i = [] := by
  unfold eventsFor
  rw [hg]

theorem eventsFor_of_empty (terms : List Txt) (fetch : Txt → Option Txt)
    (mbox : List MailMsg) (i : Nat) (mm : MailMsg) (hg : mbox.get? i = some mm)
    (hb : (msg_matches terms fetch mm.content).isEmpty = true) :
    eventsFor terms fetch mbox i = [Event.storeDeleted i] := by
  unfold eventsFor
  rw [hg]
  simp [hb]

theorem eventsFor_of_nonempty (terms : List Txt) (fetch : Txt → Option Txt)
    (mbox : List MailMsg) (i : Nat) (mm : MailMsg) (hg : mbox.get? i = some mm)
    (hb : (msg_matches terms fetch mm.content).isEmpty = false) :
    eventsFor terms fetch mbox i =
      [Event.alert i (alertText (msg_matches terms fetch mm.content) mm.content),
       Event.storeSeen i] := by
  unfold eventsFor
  rw [hg]
  simp [hb]

theorem eventIdx_of_mem_eventsFor (terms : List Txt) (fetch : Txt → Option Txt)
    (mbox : List MailMsg) (i : Nat) (e : Event)
    (h : e ∈ eventsFor terms fetch mbox i) : eventIdx e = some i := by
  cases hg : mbox.get? i with
  | none =>
    rw [eventsFor_of_none terms fetch mbox i hg] at h
    cases h
  | some mm =>
    cases hb : (msg_matches terms fetch mm.content).isEmpty with
    | true =>
      rw [eventsFor_of_empty terms fetch mbox i mm hg hb] at h
      simp only [List.mem_singleton] at h
      subst h
      rfl
    | false =>
      rw [eventsFor_of_nonempty terms fetch mbox i mm hg hb] at h
      rcases List.mem_cons.mp h with rfl | h
      · rfl
      · simp only [List.mem_singleton] at h
        subst h
        rfl

theorem mem_eventsAll (terms : List Txt) (fetch : Txt → Option Txt)
    (mbox : List MailMsg) (idxs : List Nat) (e : Event) :
    e ∈ eventsAll terms fetch mbox idxs ↔
      ∃ i ∈ idxs, e ∈ eventsFor terms fetch mbox i := by
  induction idxs with
  | nil => simp [eventsAll]
  | cons i rest ih =>
    simp only [eventsAll, List.mem_append, ih, List.mem_cons]
    constructor
    · rintro (h | ⟨i', hi', h⟩)
      · exact ⟨i, Or.inl rfl, h⟩
      · exact ⟨i', Or.inr hi', h⟩
    · rintro ⟨i', hi' | hi', h⟩
      · subst hi'
        exact Or.inl h
      · exact Or.inr ⟨i', hi', h⟩

theorem eventsFor_congr (terms : List Txt) (fetch : Txt → Option Txt)
    (mbox1 mbox2 : List MailMsg) (i : Nat)
    (h : mbox1.get? i = mbox2.get? i) :
    eventsFor terms fetch mbox1 i = eventsFor terms fetch mbox2 i := by
  unfold eventsFor
  rw [h]

theorem eventsAll_congr (terms : List Txt) (fetch : Txt → Option Txt)
    (mbox1 mbox2 : List MailMsg) (idxs : List Nat)
    (h : ∀ i ∈ idxs, mbox1.get? i = mbox2.get? i) :
    eventsAll terms fetch mbox1 idxs = eventsAll terms fetch mbox2 idxs := by
  induction idxs with
  | nil => rfl
  | cons i rest ih =>
    simp only [eventsAll]
    rw [eventsFor_congr terms fetch mbox1 mbox2 i (h i (List.mem_cons_self _ _)),
      ih (fun j hj => h j (List.mem_cons_of_mem _ hj))]

theorem flagOnly_refl (mm : MailMsg) : flagOnly mm mm :=
  ⟨rfl, rfl, fun h => h, fun h => h⟩

theorem flagOnly_trans (a b c : MailMsg) (h1 : flagOnly a b) (h2 : flagOnly b c) :
    flagOnly a c :=
  ⟨h2.1.trans h1.1, h2.2.1.trans h1.2.1,
   fun h => h2.2.2.1 (h1.2.2.1 h), fun h => h2.2.2.2 (h1.2.2.2 h)⟩

theorem flagOnly_handleMsg (terms : List Txt) (fetch : Txt → Option Txt)
    (mm : MailMsg) : flagOnly mm (handleMsg terms fetch mm) := by
  unfold handleMsg flagOnly
  by_cases hb : (msg_matches terms fetch mm.content).isEmpty = true <;>
    simp [hb]

theorem send_telegram_error_iff (send : Txt → Bool) (text : Txt) :
    send_telegram send text = Except.error () ↔
      send (telegramPayload text) = false := by
  unfold send_telegram
  cases hs : send (telegramPayload text) <;> simp [hs]

theorem runLoop_ok_spec (terms : List Txt) (fetch : Txt → Option Txt)
    (send : Txt → Bool) :
    ∀ (idxs : List Nat) (mbox : List MailMsg) (tr : List Event)
      (mbox' : List MailMsg) (tr' : List Event),
    idxs.Nodup →
    runLoop terms fetch send idxs mbox tr = Outcome.ok mbox' tr' →
    tr' = tr ++ eventsAll terms fetch mbox idxs ∧
    mbox'.length = mbox.length ∧
    (∀ j, j ∉ idxs → mbox'.get? j = mbox.get? j) ∧
    (∀ j ∈ idxs, ∀ mm, mbox.get? j = some mm →
      mbox'.get? j = some (handleMsg terms fetch mm)) := by
  intro idxs
  induction idxs with
  | nil =>
    intro mbox tr mbox' tr' _ h
    cases h
    exact ⟨by simp [eventsAll], rfl, fun j _ => rfl,
      fun j hj => absurd hj (List.not_mem_nil j)⟩
  | cons i rest ih =>
    intro mbox tr mbox' tr' hnd h
    have hnd_rest : rest.Nodup := (List.nodup_cons.mp hnd).2
    have hi_not : i ∉ rest := (List.nodup_cons.mp hnd).1
    cases hg : mbox.get? i with
    | none =>
      have hstep : runLoop terms fetch send (i :: rest) mbox tr =
          runLoop terms fetch send rest mbox tr := by
        simp only [runLoop, hg]
      rw [hstep] at h
      obtain ⟨htr, hlen, hout, hin⟩ := ih mbox tr mbox' tr' hnd_rest h
      refine ⟨?_, hlen, ?_, ?_⟩
      · rw [htr]
        simp [eventsAll, eventsFor_of_none terms fetch mbox i hg]
      · intro j hj
        exact hout j (fun hjr => hj (List.mem_cons_of_mem _ hjr))
      · intro j hj mm hm
        rcases List.mem_cons.mp hj with rfl | hjr
        · rw [hm] at hg
          cases hg
        · exact hin j hjr mm hm
    | some mm =>
      have hlt : i < mbox.length := lt_length_of_get?_some mbox i mm hg
      cases hb : (msg_matches terms fetch mm.content).isEmpty with
      | true =>
        have hstep : runLoop terms fetch send (i :: rest) mbox tr =
            runLoop terms fetch send rest
              (mbox.set i { mm with seen := true, deleted := true })
              (tr ++ [Event.storeDeleted i]) := by
          simp only [runLoop, hg, hb, if_true]
        rw [hstep] at h
        obtain ⟨htr, hlen, hout, hin⟩ := ih _ _ mbox' tr' hnd_rest h
        have hgets : ∀ j ∈ rest,
            (mbox.set i { mm with seen := true, deleted := true }).get? j =
              mbox.get? j :=
          fun j hj => get?_set_of_ne _ _ _ _ (fun he => hi_not (he ▸ hj))
        refine ⟨?_, ?_, ?_, ?_⟩
        · rw [htr, eventsAll_congr terms fetch _ mbox rest hgets]
          simp [eventsAll, eventsFor_of_empty terms fetch mbox i mm hg hb]
        · rw [hlen, length_set']
        · intro j hj
          have hji : i ≠ j := fun he => hj (he ▸ List.mem_cons_self _ _)
          rw [hout j (fun hjr => hj (List.mem_cons_of_mem _ hjr)),
            get?_set_of_ne _ _ _ _ hji]
        · intro j hj mm' hm'
          rcases List.mem_cons.mp hj with rfl | hjr
          · rw [hg] at hm'
            injection hm' with hmm
            subst hmm
            rw [hout j hi_not, get?_set_self _ _ _ hlt]
            unfold handleMsg
            rw [if_pos hb]
          · have hm'' : (mbox.set i { mm with seen := true, deleted := true }).get? j =
                some mm' := by
              rw [hgets j hjr]
              exact hm'
            exact hin j hjr mm' hm''
      | false =>
        cases hsend : send_telegram send
            (alertText (msg_matches terms fetch mm.content) mm.content) with
        | error u =>
          have hstep : runLoop terms fetch send (i :: rest) mbox tr =
              Outcome.aborted (mbox.set i { mm with seen := true }) tr i := by
            simp only [runLoop, hg, hb, Bool.false_eq_true, if_false, hsend]
          rw [hstep] at h
          cases h
        | ok u =>
          have hstep : runLoop terms fetch send (i :: rest) mbox tr =
              runLoop terms fetch send rest
                (mbox.set i { mm with seen := true })
                (tr ++ [Event.alert i (alertText (msg_matches terms fetch mm.content)
                          mm.content),
                        Event.storeSeen i]) := by
            simp only [runLoop, hg, hb, Bool.false_eq_true, if_false, hsend]
          rw [hstep] at h
          obtain ⟨htr, hlen, hout, hin⟩ := ih _ _ mbox' tr' hnd_rest h
          have hgets : ∀ j ∈ rest,
              (mbox.set i { mm with seen := true }).get? j = mbox.get? j :=
            fun j hj => get?_set_of_ne _ _ _ _ (fun he => hi_not (he ▸ hj))
          refine ⟨?_, ?_, ?_, ?_⟩
          · rw [htr, eventsAll_congr terms fetch _ mbox rest hgets]
            simp [eventsAll, eventsFor_of_nonempty terms fetch mbox i mm hg hb]
          · rw [hlen, length_set']
          · intro j hj
            have hji : i ≠ j := fun he => hj (he ▸ List.mem_cons_self _ _)
            rw [hout j (fun hjr => hj (List.mem_cons_of_mem _ hjr)),
              get?_set_of_ne _ _ _ _ hji]
          · intro j hj mm' hm'
            rcases List.mem_cons.mp hj with rfl | hjr
            · rw [hg] at hm'
              injection hm' with hmm
              subst hmm
              rw [hout j hi_not, get?_set_self _ _ _ hlt]
              unfold handleMsg
              rw [if_neg (by rw [hb]; exact Bool.false_ne_true)]
            · have hm'' : (mbox.set i { mm with seen := true }).get? j = some mm' := by
                rw [hgets j hjr]
                exact hm'
              exact hin j hjr mm' hm''

theorem runLoop_aborted_spec (terms : List Txt) (fetch : Txt → Option Txt)
    (send : Txt → Bool) :
    ∀ (idxs : List Nat) (mbox : List MailMsg) (tr : List Event)
      (mbox' : List MailMsg) (tr' : List Event) (k : Nat),
    idxs.Nodup →
    runLoop terms fetch send idxs mbox tr = Outcome.aborted mbox' tr' k →
    k ∈ idxs ∧
    mbox'.length = mbox.length ∧
    (∀ e ∈ tr', e ∈ tr ∨ (eventIdx e ≠ some k ∧ e ≠ Event.expunge)) ∧
    (∀ j mm, mbox.get? j = some mm →
      ∃ mm', mbox'.get? j = some mm' ∧ flagOnly mm mm') ∧
    (∃ mm, mbox.get? k = some mm ∧
      mbox'.get? k = some { mm with seen := true } ∧
      (msg_matches terms fetch mm.content).isEmpty = false ∧
      send (telegramPayload
        (alertText (msg_matches terms fetch mm.content) mm.content)) = false) := by
  intro idxs
  induction idxs with
  | nil =>
    intro mbox tr mbox' tr' k _ h
    cases h
  | cons i rest ih =>
    intro mbox tr mbox' tr' k hnd h
    have hnd_rest : rest.Nodup := (List.nodup_cons.mp hnd).2
    have hi_not : i ∉ rest := (List.nodup_cons.mp hnd).1
    cases hg : mbox.get? i with
    | none =>
      have hstep : runLoop terms fetch send (i :: rest) mbox tr =
          runLoop terms fetch send rest mbox tr := by
        simp only [runLoop, hg]
      rw [hstep] at h
      obtain ⟨hk, hlen, hev, hfl, hfail⟩ := ih mbox tr mbox' tr' k hnd_rest h
      exact ⟨List.mem_cons_of_mem _ hk, hlen, hev, hfl, hfail⟩
    | some mm =>
      have hlt : i < mbox.length := lt_length_of_get?_some mbox i mm hg
      cases hb : (msg_matches terms fetch mm.content).isEmpty with
      | true =>
        have hstep : runLoop terms fetch send (i :: rest) mbox tr =
            runLoop terms fetch send rest
              (mbox.set i { mm with seen := true, deleted := true })
              (tr ++ [Event.storeDeleted i]) := by
          simp only [runLoop, hg, hb, if_true]
        rw [hstep] at h
        obtain ⟨hk, hlen, hev, hfl, hfail⟩ := ih _ _ mbox' tr' k hnd_rest h
        have hki : i ≠ k := fun he => hi_not (he ▸ hk)
        have hset_k : (mbox.set i { mm with seen := true, deleted := true }).get? k =
            mbox.get? k :=
          get?_set_of_ne _ _ _ _ hki
        refine ⟨List.mem_cons_of_mem _ hk, by rw [hlen, length_set'], ?_, ?_, ?_⟩
        · intro e he
          rcases hev e he with hin | hother
          · rcases List.mem_append.mp hin with hin | hin
            · exact Or.inl hin
            · simp only [List.mem_singleton] at hin
              subst hin
              exact Or.inr ⟨fun hc => hki (Option.some.inj hc), fun hc => by cases hc⟩
          · exact Or.inr hother
        · intro j mm0 hj
          by_cases hji : i = j
          · subst hji
            rw [hg] at hj
            injection hj with hj
            subst hj
            obtain ⟨mm', hmm', hflag⟩ := hfl i { mm with seen := true, deleted := true }
              (get?_set_self _ _ _ hlt)
            exact ⟨mm', hmm',
              flagOnly_trans mm { mm with seen := true, deleted := true } mm'
                ⟨rfl, rfl, fun _ => rfl, fun _ => rfl⟩ hflag⟩
          · obtain ⟨mm', hmm', hflag⟩ := hfl j mm0
              (by rw [get?_set_of_ne _ _ _ _ hji]; exact hj)
            exact ⟨mm', hmm', hflag⟩
        · obtain ⟨mmf, hgf, hgf', hbf, hsf⟩ := hfail
          rw [hset_k] at hgf
          exact ⟨mmf, hgf, hgf', hbf, hsf⟩
      | false =>
        cases hsend : send_telegram send
            (alertText (msg_matches terms fetch mm.content) mm.content) with
        | ok u =>
          have hstep : runLoop terms fetch send (i :: rest) mbox tr =
              runLoop terms fetch send rest
                (mbox.set i { mm with seen := true })
                (tr ++ [Event.alert i (alertText (msg_matches terms fetch mm.content)
                          mm.content),
                        Event.storeSeen i]) := by
            simp only [runLoop, hg, hb, Bool.false_eq_true, if_false, hsend]
          rw [hstep] at h
          obtain ⟨hk, hlen, hev, hfl, hfail⟩ := ih _ _ mbox' tr' k hnd_rest h
          have hki : i ≠ k := fun he => hi_not (he ▸ hk)
          have hset_k : (mbox.set i { mm with seen := true }).get? k = mbox.get? k :=
            get?_set_of_ne _ _ _ _ hki
          refine ⟨List.mem_cons_of_mem _ hk, by rw [hlen, length_set'], ?_, ?_, ?_⟩
          · intro e he
            rcases hev e he with hin | hother
            · rcases List.mem_append.mp hin with hin | hin
              · exact Or.inl hin
              · rcases List.mem_cons.mp hin with hin | hin
                · subst hin
                  exact Or.inr ⟨fun hc => hki (Option.some.inj hc), fun hc => by cases hc⟩
                · simp only [List.mem_singleton] at hin
                  subst hin
                  exact Or.inr ⟨fun hc => hki (Option.some.inj hc), fun hc => by cases hc⟩
            · exact Or.inr hother
          · intro j mm0 hj
            by_cases hji : i = j
            · subst hji
              rw [hg] at hj
              injection hj with hj
              subst hj
              obtain ⟨mm', hmm', hflag⟩ := hfl i { mm with seen := true }
                (get?_set_self _ _ _ hlt)
              exact ⟨mm', hmm',
                flagOnly_trans mm { mm with seen := true } mm'
                  ⟨rfl, rfl, fun _ => rfl, fun hh => hh⟩ hflag⟩
            · obtain ⟨mm', hmm', hflag⟩ := hfl j mm0
                (by rw [get?_set_of_ne _ _ _ _ hji]; exact hj)
              exact ⟨mm', hmm', hflag⟩
          · obtain ⟨mmf, hgf, hgf', hbf, hsf⟩ := hfail
            rw [hset_k] at hgf
            exact ⟨mmf, hgf, hgf', hbf, hsf⟩
        | error u =>
          have hstep : runLoop terms fetch send (i :: rest) mbox tr =
              Outcome.aborted (mbox.set i { mm with seen := true }) tr i := by
            simp only [runLoop, hg, hb, Bool.false_eq_true, if_false, hsend]
          rw [hstep] at h
          cases h
          cases u
          refine ⟨List.mem_cons_self _ _, length_set' _ _ _,
            fun e he => Or.inl he, ?_,
            ⟨mm, hg, get?_set_self _ _ _ hlt, hb,
              (send_telegram_error_iff send _).mp hsend⟩⟩
          intro j mm0 hj
          by_cases hji : i = j
          · subst hji
            rw [hg] at hj
            injection hj with hj
            subst hj
            exact ⟨{ mm with seen := true }, get?_set_self _ _ _ hlt,
              ⟨rfl, rfl, fun _ => rfl, fun hh => hh⟩⟩
          · exact ⟨mm0, by rw [get?_set_of_ne _ _ _ _ hji]; exact hj,
              flagOnly_refl mm0⟩

theorem main_ok_elim (terms : List Txt) (fetch : Txt → Option Txt)
    (send : Txt → Bool) (mbox final : List MailMsg) (tr : List Event)
    (h : main terms fetch send mbox = Outcome.ok final tr) :
    ∃ mbox1 trL,
      runLoop terms fetch send (selectIdxs mbox) mbox [] = Outcome.ok mbox1 trL ∧
      final = mbox1.filter (fun mm => !mm.deleted) ∧
      tr = trL ++ [Event.expunge] := by
  unfold main at h
  cases hr : runLoop terms fetch send (selectIdxs mbox) mbox [] with
  | ok m1 t1 =>
    rw [hr] at h
    injection h with h1 h2
    exact ⟨m1, t1, rfl, h1.symm, h2.symm⟩
  | aborted m1 t1 k =>
    rw [hr] at h
    cases h

theorem main_aborted_elim (terms : List Txt) (fetch : Txt → Option Txt)
    (send : Txt → Bool) (mbox mbox1 : List MailMsg) (tr : List Event) (k : Nat)
    (h : main terms fetch send mbox = Outcome.aborted mbox1 tr k) :
    runLoop terms fetch send (selectIdxs mbox) mbox [] =
      Outcome.aborted mbox1 tr k := by
  unfold main at h
  cases hr : runLoop terms fetch send (selectIdxs mbox) mbox [] with
  | ok m1 t1 =>
    rw [hr] at h
    cases h
  | aborted m1 t1 k' =>
    rw [hr] at h
    injection h with h1 h2 h3
    rw [h1, h2, h3]

theorem mem_eventsFor_of_mem_eventsAll (terms : List Txt) (fetch : Txt → Option Txt)
    (mbox : List MailMsg) (idxs : List Nat) (e : Event) (i : Nat)
    (h : e ∈ eventsAll terms fetch mbox idxs) (hidx : eventIdx e = some i) :
    e ∈ eventsFor terms fetch mbox i := by
  obtain ⟨i', hi', hf⟩ := (mem_eventsAll terms fetch mbox idxs e).mp h
  have h2 := eventIdx_of_mem_eventsFor terms fetch mbox i' e hf
  rw [hidx] at h2
  injection h2 with h2
  rw [h2]
  exact hf

/-- C2: in a normally completed run, every selected message is handled by
exactly one branch: a matching message is alerted and flagged seen (and not
flagged deleted), a non-matching one is flagged deleted (and neither
alerted nor flagged seen). -/
theorem c2_exactly_one_branch (terms : List Txt) (fetch : Txt → Option Txt)
    (send : Txt → Bool) (mbox final : List MailMsg) (tr : List Event)
    (h : main terms fetch send mbox = Outcome.ok final tr) :
    ∀ i ∈ selectIdxs mbox, ∃ mm, mbox.get? i = some mm ∧
      (((msg_matches terms fetch mm.content).isEmpty = true ∧
        Event.storeDeleted i ∈ tr ∧ Event.storeSeen i ∉ tr ∧
        (∀ t, Event.alert i t ∉ tr)) ∨
       ((msg_matches terms fetch mm.content).isEmpty = false ∧
        Event.storeSeen i ∈ tr ∧
        Event.alert i (alertText (msg_matches terms fetch mm.content) mm.content) ∈ tr ∧
        Event.storeDeleted i ∉ tr)) := by
  intro i hi
  obtain ⟨mbox1, trL, hrun, hfin, htr⟩ :=
    main_ok_elim terms fetch send mbox final tr h
  obtain ⟨htrL, hlen, hout, hin⟩ := runLoop_ok_spec terms fetch send
    (selectIdxs mbox) mbox [] mbox1 trL (nodup_selectIdxs mbox) hrun
  have htrL' : trL = eventsAll terms fetch mbox (selectIdxs mbox) := by
    simpa using htrL
  obtain ⟨mm, hg⟩ := isSome_of_mem_selectIdxs mbox i hi
  subst htr
  have hmem_tr : ∀ e : Event, e ∈ trL ++ [Event.expunge] ↔
      (e ∈ eventsAll terms fetch mbox (selectIdxs mbox) ∨ e = Event.expunge) := by
    intro e
    rw [List.mem_append, htrL']
    simp
  refine ⟨mm, hg, ?_⟩
  cases hb : (msg_matches terms fetch mm.content).isEmpty with
  | true =>
    left
    refine ⟨rfl, ?_, ?_, ?_⟩
    · apply (hmem_tr _).mpr
      left
      apply (mem_eventsAll terms fetch mbox (selectIdxs mbox) _).mpr
      refine ⟨i, hi, ?_⟩
      rw [eventsFor_of_empty terms fetch mbox i mm hg hb]
      exact List.mem_singleton_self _
    · intro hc
      rcases (hmem_tr _).mp hc with hc | hc
      · have hf := mem_eventsFor_of_mem_eventsAll terms fetch mbox
          (selectIdxs mbox) (Event.storeSeen i) i hc rfl
        rw [eventsFor_of_empty terms fetch mbox i mm hg hb] at hf
        exact Event.noConfusion (List.mem_singleton.mp hf)
      · exact Event.noConfusion hc
    · intro t hc
      rcases (hmem_tr _).mp hc with hc | hc
      · have hf := mem_eventsFor_of_mem_eventsAll terms fetch mbox
          (selectIdxs mbox) (Event.alert i t) i hc rfl
        rw [eventsFor_of_empty terms fetch mbox i mm hg hb] at hf
        exact Event.noConfusion (List.mem_singleton.mp hf)
      · exact Event.noConfusion hc
  | false =>
    right
    refine ⟨rfl, ?_, ?_, ?_⟩
    · apply (hmem_tr _).mpr
      left
      apply (mem_eventsAll terms fetch mbox (selectIdxs mbox) _).mpr
      refine ⟨i, hi, ?_⟩
      rw [eventsFor_of_nonempty terms fetch mbox i mm hg hb]
      exact List.mem_cons_of_mem _ (List.mem_singleton_self _)
    · apply (hmem_tr _).mpr
      left
      apply (mem_eventsAll terms fetch mbox (selectIdxs mbox) _).mpr
      refine ⟨i, hi, ?_⟩
      rw [eventsFor_of_nonempty terms fetch mbox i mm hg hb]
      exact List.mem_cons_self _ _
    · intro hc
      rcases (hmem_tr _).mp hc with hc | hc
      · have hf := mem_eventsFor_of_mem_eventsAll terms fetch mbox
          (selectIdxs mbox) (Event.storeDeleted i) i hc rfl
        rw [eventsFor_of_nonempty terms fetch mbox i mm hg hb] at hf
        rcases List.mem_cons.mp hf with hf | hf
        · exact Event.noConfusion hf
        · exact Event.noConfusion (List.mem_singleton.mp hf)
      · exact Event.noConfusion hc

theorem c2_exactly_one_branch_witness :
    ∃ mm, wMbox.get? 0 = some mm ∧
      (((msg_matches wTerms wFetch mm.content).isEmpty = true ∧
        Event.storeDeleted 0 ∈ wTr ∧ Event.storeSeen 0 ∉ wTr ∧
        (∀ t, Event.alert 0 t ∉ wTr)) ∨
       ((msg_matches wTerms wFetch mm.content).isEmpty = false ∧
        Event.storeSeen 0 ∈ wTr ∧
        Event.alert 0 (alertText (msg_matches wTerms wFetch mm.content) mm.content) ∈ wTr ∧
        Event.storeDeleted 0 ∉ wTr)) :=
  c2_exactly_one_branch wTerms wFetch wSend wMbox wFinal wTr (by decide) 0 (by decide)

/-- C4: in a normally completed run on a mailbox with no pre-existing
`Deleted` flags, the expunge happens exactly once, strictly after every
listed message has been classified and flagged, and it removes exactly the
messages flagged deleted during the run. -/
theorem c4_single_batch_expunge (terms : List Txt) (fetch : Txt → Option Txt)
    (send : Txt → Bool) (mbox final : List MailMsg) (tr : List Event)
    (hclean : ∀ mm ∈ mbox, mm.deleted = false)
    (h : main terms fetch send mbox = Outcome.ok final tr) :
    ∃ mbox1 trL,
      runLoop terms fetch send (selectIdxs mbox) mbox [] = Outcome.ok mbox1 trL ∧
      tr = trL ++ [Event.expunge] ∧
      Event.expunge ∉ trL ∧
      tr.count Event.expunge = 1 ∧
      final = mbox1.filter (fun mm => !mm.deleted) ∧
      (∀ j, (∃ mm, mbox1.get? j = some mm ∧ mm.deleted = true) ↔
        Event.storeDeleted j ∈ trL) := by
  obtain ⟨mbox1, trL, hrun, hfin, htr⟩ :=
    main_ok_elim terms fetch send mbox final tr h
  obtain ⟨htrL, hlen, hout, hin⟩ := runLoop_ok_spec terms fetch send
    (selectIdxs mbox) mbox [] mbox1 trL (nodup_selectIdxs mbox) hrun
  have htrL' : trL = eventsAll terms fetch mbox (selectIdxs mbox) := by
    simpa using htrL
  have hnoexp : Event.expunge ∉ trL := by
    rw [htrL']
    intro hc
    obtain ⟨i', hi', hf⟩ :=
      (mem_eventsAll terms fetch mbox (selectIdxs mbox) _).mp hc
    have hidx := eventIdx_of_mem_eventsFor terms fetch mbox i' _ hf
    cases hidx
  refine ⟨mbox1, trL, hrun, htr, hnoexp, ?_, hfin, ?_⟩
  · rw [htr, List.count_append, List.count_eq_zero.mpr hnoexp]
    decide
  · intro j
    constructor
    · rintro ⟨mm', hg1, hdel⟩
      by_cases hj : j ∈ selectIdxs mbox
      · obtain ⟨mm0, hg0⟩ := isSome_of_mem_selectIdxs mbox j hj
        have hj1 := hin j hj mm0 hg0
        rw [hj1] at hg1
        injection hg1 with hg1
        have hmm0del : mm0.deleted = false := hclean mm0 (List.get?_mem hg0)
        have hb : (msg_matches terms fetch mm0.content).isEmpty = true := by
          cases hx : (msg_matches terms fetch mm0.content).isEmpty with
          | true => rfl
          | false =>
            unfold handleMsg at hg1
            rw [hx] at hg1
            simp only [Bool.false_eq_true, if_false] at hg1
            rw [← hg1] at hdel
            rw [hmm0del] at hdel
            cases hdel
        rw [htrL']
        apply (mem_eventsAll terms fetch mbox (selectIdxs mbox) _).mpr
        refine ⟨j, hj, ?_⟩
        rw [eventsFor_of_empty terms fetch mbox j mm0 hg0 hb]
        exact List.mem_singleton_self _
      · rw [hout j hj] at hg1
        rw [hclean mm' (List.get?_mem hg1)] at hdel
        cases hdel
    · intro hc
      rw [htrL'] at hc
      obtain ⟨i', hi', hf'⟩ :=
        (mem_eventsAll terms fetch mbox (selectIdxs mbox) _).mp hc
      have hidx := eventIdx_of_mem_eventsFor terms fetch mbox i' _ hf'
      have hj : j ∈ selectIdxs mbox := by
        injection hidx with hh
        rw [hh]
        exact hi'
      obtain ⟨mm0, hg0⟩ := isSome_of_mem_selectIdxs mbox j hj
      have hf := mem_eventsFor_of_mem_eventsAll terms fetch mbox
        (selectIdxs mbox) (Event.storeDeleted j) j hc rfl
      cases hb : (msg_matches terms fetch mm0.content).isEmpty with
      | true =>
        refine ⟨handleMsg terms fetch mm0, hin j hj mm0 hg0, ?_⟩
        unfold handleMsg
        rw [if_pos hb]
      | false =>
        rw [eventsFor_of_nonempty terms fetch mbox j mm0 hg0 hb] at hf
        rcases List.mem_cons.mp hf with hx | hx
        · exact Event.noConfusion hx
        · exact Event.noConfusion (List.mem_singleton.mp hx)

theorem c4_single_batch_expunge_witness :
    ∃ mbox1 trL,
      runLoop wTerms wFetch wSend (selectIdxs wMbox) wMbox [] = Outcome.ok mbox1 trL ∧
      wTr = trL ++ [Event.expunge] ∧
      Event.expunge ∉ trL ∧
      wTr.count Event.expunge = 1 ∧
      wFinal = mbox1.filter (fun mm => !mm.deleted) ∧
      (∀ j, (∃ mm, mbox1.get? j = some mm ∧ mm.deleted = true) ↔
        Event.storeDeleted j ∈ trL) :=
  c4_single_batch_expunge wTerms wFetch wSend wMbox wFinal wTr (by decide) (by decide)

/-- C5: the messages listed for processing are exactly the unseen messages
whose `From` header matches the facebookmail.com filter; in a normally
completed run on a mailbox without pre-existing `Deleted` flags, no event
touches any unlisted message and every unlisted message survives the run
unchanged. -/
theorem c5_selection_exact (terms : List Txt) (fetch : Txt → Option Txt)
    (send : Txt → Bool) (mbox final : List MailMsg) (tr : List Event)
    (hclean : ∀ mm ∈ mbox, mm.deleted = false)
    (h : main terms fetch send mbox = Outcome.ok final tr) :
    (∀ i, i ∈ selectIdxs mbox ↔
      ∃ mm, mbox.get? i = some mm ∧ mm.seen = false ∧ mm.fromFacebook = true) ∧
    (∀ j, j ∉ selectIdxs mbox →
      (∀ e ∈ tr, eventIdx e ≠ some j) ∧
      ∀ mm, mbox.get? j = some mm → mm ∈ final) := by
  obtain ⟨mbox1, trL, hrun, hfin, htr⟩ :=
    main_ok_elim terms fetch send mbox final tr h
  obtain ⟨htrL, hlen, hout, hin⟩ := runLoop_ok_spec terms fetch send
    (selectIdxs mbox) mbox [] mbox1 trL (nodup_selectIdxs mbox) hrun
  have htrL' : trL = eventsAll terms fetch mbox (selectIdxs mbox) := by
    simpa using htrL
  refine ⟨fun i => mem_selectIdxs mbox i, fun j hj => ⟨?_, ?_⟩⟩
  · intro e he
    subst htr
    rcases List.mem_append.mp he with he | he
    · rw [htrL'] at he
      obtain ⟨i', hi', hf⟩ :=
        (mem_eventsAll terms fetch mbox (selectIdxs mbox) _).mp he
      rw [eventIdx_of_mem_eventsFor terms fetch mbox i' e hf]
      intro hc
      injection hc with hc
      exact hj (hc ▸ hi')
    · rw [List.mem_singleton.mp he]
      exact fun hc => Option.noConfusion hc
  · intro mm hg
    have hg1 : mbox1.get? j = some mm := by
      rw [hout j hj]
      exact hg
    rw [hfin]
    apply List.mem_filter.mpr
    refine ⟨List.get?_mem hg1, ?_⟩
    rw [hclean mm (List.get?_mem hg)]
    rfl

theorem c5_selection_exact_witness :
    (0 ∈ selectIdxs wMbox ↔
      ∃ mm, wMbox.get? 0 = some mm ∧ mm.seen = false ∧ mm.fromFacebook = true) ∧
    (∀ e ∈ wTr, eventIdx e ≠ some 2) ∧
    (∀ mm, wMbox.get? 2 = some mm → mm ∈ wFinal) :=
  ⟨(c5_selection_exact wTerms wFetch wSend wMbox wFinal wTr (by decide) (by decide)).1 0,
   ((c5_selection_exact wTerms wFetch wSend wMbox wFinal wTr (by decide) (by decide)).2
     2 (by decide)).1,
   ((c5_selection_exact wTerms wFetch wSend wMbox wFinal wTr (by decide) (by decide)).2
     2 (by decide)).2⟩

/-- C7: the only mutations of a run are flag additions on mailbox messages
and the final expunge of deleted-flagged messages; message contents and
senders are never altered, and on the abort path the mailbox keeps all its
messages with at most added flags.  The model's whole state is the mailbox:
the script keeps no other store across a run. -/
theorem c7_mailbox_only_mutations (terms : List Txt) (fetch : Txt → Option Txt)
    (send : Txt → Bool) (mbox : List MailMsg) :
    (∀ final tr, main terms fetch send mbox = Outcome.ok final tr →
      ∃ mbox1 : List MailMsg, mbox1.length = mbox.length ∧
        (∀ j mm, mbox.get? j = some mm →
          ∃ mm', mbox1.get? j = some mm' ∧ flagOnly mm mm') ∧
        final = mbox1.filter (fun mm => !mm.deleted)) ∧
    (∀ mbox1 tr k, main terms fetch send mbox = Outcome.aborted mbox1 tr k →
      mbox1.length = mbox.length ∧
      ∀ j mm, mbox.get? j = some mm →
        ∃ mm', mbox1.get? j = some mm' ∧ flagOnly mm mm') := by
  constructor
  · intro final tr h
    obtain ⟨mbox1, trL, hrun, hfin, htr⟩ :=
      main_ok_elim terms fetch send mbox final tr h
    obtain ⟨htrL, hlen, hout, hin⟩ := runLoop_ok_spec terms fetch send
      (selectIdxs mbox) mbox [] mbox1 trL (nodup_selectIdxs mbox) hrun
    refine ⟨mbox1, hlen, ?_, hfin⟩
    intro j mm hg
    by_cases hj : j ∈ selectIdxs mbox
    · exact ⟨handleMsg terms fetch mm, hin j hj mm hg,
        flagOnly_handleMsg terms fetch mm⟩
    · exact ⟨mm, by rw [hout j hj]; exact hg, flagOnly_refl mm⟩
  · intro mbox1 tr k h
    have hrun := main_aborted_elim terms fetch send mbox mbox1 tr k h
    obtain ⟨hk, hlen, hev, hfl, hfail⟩ := runLoop_aborted_spec terms fetch
      send (selectIdxs mbox) mbox [] mbox1 tr k (nodup_selectIdxs mbox) hrun
    exact ⟨hlen, hfl⟩

theorem c7_mailbox_only_mutations_witness :
    ∃ mbox1 : List MailMsg, mbox1.length = wMbox.length ∧
      (∀ j mm, wMbox.get? j = some mm →
        ∃ mm', mbox1.get? j = some mm' ∧ flagOnly mm mm') ∧
      wFinal = mbox1.filter (fun mm => !mm.deleted) :=
  (c7_mailbox_only_mutations wTerms wFetch wSend wMbox).1 wFinal wTr (by decide)

/-- C9 (counterexample): on a concrete mailbox whose only matching message
is initially unread, a run whose alert delivery fails aborts with that very
message already marked read — the non-PEEK RFC822 fetch set `Seen` on the
server before the alert was attempted — refuting the claim that the failed
run leaves the matching message unread with its state unchanged. -/
theorem c9_alert_failure_counterexample :
    main wTerms wFetch wSendFail wMbox = Outcome.aborted wFinalF [] 0 ∧
    wMbox.get? 0 =
      some { content := wMsgA, fromFacebook := true, seen := false, deleted := false } ∧
    (msg_matches wTerms wFetch wMsgA).isEmpty = false ∧
    wFinalF.get? 0 =
      some { content := wMsgA, fromFacebook := true, seen := true, deleted := false } := by
  decide

/-- C9 (amended): `send_telegram` raises exactly on a non-success HTTP
response; a run whose alert fails aborts before the explicit `Seen` store
and before the expunge: no expunge event exists, no message is removed, and
every message — including any flagged `Deleted` earlier in the run — stays
present with at most added flags.  The failing matching message, unread
when the run started, receives no explicit store, but has already been
marked `Seen` by the non-PEEK RFC822 fetch, so it is left read rather than
unread. -/
theorem c9_alert_failure_amended (terms : List Txt) (fetch : Txt → Option Txt)
    (send : Txt → Bool) (mbox mbox1 : List MailMsg) (tr : List Event) (k : Nat)
    (h : main terms fetch send mbox = Outcome.aborted mbox1 tr k) :
    mbox1.length = mbox.length ∧
    Event.expunge ∉ tr ∧
    (∀ e ∈ tr, eventIdx e ≠ some k) ∧
    (∃ mm, mbox.get? k = some mm ∧ mm.seen = false ∧
      mbox1.get? k = some { mm with seen := true } ∧
      (msg_matches terms fetch mm.content).isEmpty = false ∧
      send (telegramPayload
        (alertText (msg_matches terms fetch mm.content) mm.content)) = false) ∧
    (∀ j mm, mbox.get? j = some mm →
      ∃ mm', mbox1.get? j = some mm' ∧ flagOnly mm mm') ∧
    (∀ s t, send_telegram s t = Except.error () ↔
      s (telegramPayload t) = false) := by
  have hrun := main_aborted_elim terms fetch send mbox mbox1 tr k h
  obtain ⟨hk, hlen, hev, hfl, hfail⟩ := runLoop_aborted_spec terms fetch
    send (selectIdxs mbox) mbox [] mbox1 tr k (nodup_selectIdxs mbox) hrun
  refine ⟨hlen, ?_, ?_, ?_, hfl, fun s t => send_telegram_error_iff s t⟩
  · intro hc
    rcases hev _ hc with hin | ⟨_, hne⟩
    · exact List.not_mem_nil _ hin
    · exact hne rfl
  · intro e he
    rcases hev e he with hin | ⟨hne, _⟩
    · exact absurd hin (List.not_mem_nil e)
    · exact hne
  · obtain ⟨mmf, hgf, hgf1, hbf, hsf⟩ := hfail
    obtain ⟨mmsel, hgsel, hseen, _⟩ := (mem_selectIdxs mbox k).mp hk
    rw [hgf] at hgsel
    injection hgsel with he
    exact ⟨mmf, hgf, by rw [he]; exact hseen, hgf1, hbf, hsf⟩

theorem c9_alert_failure_amended_witness :
    wMbox.length = wMbox.length ∧
    Event.expunge ∉ ([] : List Event) ∧
    (∀ e ∈ ([] : List Event), eventIdx e ≠ some 0) ∧
    (∃ mm, wMbox.get? 0 = some mm ∧ mm.seen = false ∧
      wFinalF.get? 0 = some { mm with seen := true } ∧
      (msg_matches wTerms wFetch mm.content).isEmpty = false ∧
      wSendFail (telegramPayload
        (alertText (msg_matches wTerms wFetch mm.content) mm.content)) = false) ∧
    (∀ j mm, wMbox.get? j = some mm →
      ∃ mm', wFinalF.get? j = some mm' ∧ flagOnly mm mm') ∧
    (∀ s t, send_telegram s t = Except.error () ↔
      s (telegramPayload t) = false) :=
  c9_alert_failure_amended wTerms wFetch wSendFail wMbox wFinalF [] 0 (by decide)

/-- C1: the first phase of `msg_matches` returns exactly the configured
terms occurring case-insensitively as literal substrings of the decoded
subject joined with the decoded body text; when that set is non-empty the
message counts as a match and `msg_matches` returns exactly that set,
without consulting any link; when it is empty `msg_matches` falls through
to the link scan. -/
theorem c1_phase1_exact (terms : List Txt) (fetch : Txt → Option Txt) (m : Msg) :
    (∀ t, t ∈ matchesPhase1 terms m ↔ t ∈ terms ∧ OccursCI t (searchSpace m)) ∧
    (matchesPhase1 terms m ≠ [] →
      (∀ t, t ∈ msg_matches terms fetch m ↔ t ∈ matchesPhase1 terms m) ∧
      msg_matches terms fetch m ≠ []) ∧
    (matchesPhase1 terms m = [] →
      msg_matches terms fetch m =
        (linkScan terms fetch (extract_links m.payload)).dedup) := by
  refine ⟨fun t => mem_matchesPhase1 terms m t, fun hne => ?_, fun he => ?_⟩
  · have hb : (matchesPhase1 terms m).isEmpty = false := by
      cases hml : matchesPhase1 terms m with
      | nil => exact absurd hml hne
      | cons x xs => rfl
    constructor
    · intro t
      simp [msg_matches, hb, List.mem_dedup]
    · simp only [msg_matches, hb, Bool.false_eq_true, if_false, ne_eq,
        List.dedup_eq_nil]
      exact hne
  · simp [msg_matches, he]

theorem c1_phase1_exact_witness :
    (∀ t, t ∈ msg_matches wTerms wFetch wMsgA ↔ t ∈ matchesPhase1 wTerms wMsgA) ∧
    msg_matches wTerms wFetch wMsgA ≠ [] :=
  (c1_phase1_exact wTerms wFetch wMsgA).2.1 (by decide)

/-- C10: `msg_matches` always returns a duplicate-free list of configured
terms. -/
theorem c10_matches_nodup_subset (terms : List Txt) (fetch : Txt → Option Txt)
    (m : Msg) :
    (msg_matches terms fetch m).Nodup ∧
    ∀ t ∈ msg_matches terms fetch m, t ∈ terms := by
  constructor
  · exact List.nodup_dedup _
  · intro t ht
    rw [msg_matches, List.mem_dedup] at ht
    by_cases hb : (matchesPhase1 terms m).isEmpty
    · rw [if_pos hb] at ht
      obtain ⟨u, _, page, _, htm, _⟩ := (mem_linkScan terms fetch _ t).mp ht
      exact htm
    · rw [if_neg hb] at ht
      exact (List.mem_filter.mp ht).1

theorem c10_matches_nodup_subset_witness :
    (msg_matches wTerms wFetch wMsgA).Nodup ∧ "Moma".data ∈ wTerms :=
  ⟨(c10_matches_nodup_subset wTerms wFetch wMsgA).1,
   (c10_matches_nodup_subset wTerms wFetch wMsgA).2 "Moma".data (by decide)⟩

/-- C3: with every link fetch succeeding, a message matches (non-empty
`msg_matches`) exactly when some configured term occurs case-insensitively
in its subject-plus-body text, or in the fetched page text of some link
extracted from its body. -/
theorem c3_linked_pages_tested (terms : List Txt) (page : Txt → Txt) (m : Msg) :
    msg_matches terms (fun u => some (page u)) m ≠ [] ↔
      ((∃ t ∈ terms, OccursCI t (searchSpace m)) ∨
       ∃ u ∈ extract_links m.payload, ∃ t ∈ terms, OccursCI t (page u)) := by
  cases hb : (matchesPhase1 terms m).isEmpty with
  | false =>
    have hne : matchesPhase1 terms m ≠ [] := by
      intro h
      rw [h] at hb
      cases hb
    have hL : msg_matches terms (fun u => some (page u)) m ≠ [] := by
      simp only [msg_matches, hb, Bool.false_eq_true, if_false, ne_eq,
        List.dedup_eq_nil]
      exact hne
    constructor
    · intro _
      obtain ⟨t, ht⟩ := List.exists_mem_of_ne_nil _ hne
      obtain ⟨htm, hocc⟩ := (mem_matchesPhase1 terms m t).mp ht
      exact Or.inl ⟨t, htm, hocc⟩
    · intro _
      exact hL
  | true =>
    have hnil : matchesPhase1 terms m = [] := List.isEmpty_iff.mp hb
    have hno : ∀ t ∈ terms, ¬ OccursCI t (searchSpace m) := by
      intro t ht hocc
      have hmem : t ∈ matchesPhase1 terms m :=
        (mem_matchesPhase1 terms m t).mpr ⟨ht, hocc⟩
      rw [hnil] at hmem
      cases hmem
    simp only [msg_matches, hb, if_true, ne_eq, List.dedup_eq_nil]
    constructor
    · intro hls
      obtain ⟨t, ht⟩ := List.exists_mem_of_ne_nil _ hls
      obtain ⟨u, hu, pg, hpg, htm, hc⟩ :=
        (mem_linkScan terms (fun u => some (page u)) (extract_links m.payload) t).mp ht
      right
      refine ⟨u, hu, t, htm, ?_⟩
      have hpg' : page u = pg := Option.some.inj hpg
      rw [hpg']
      exact (ciFind_iff t pg).mp hc
    · rintro (⟨t, ht, hocc⟩ | ⟨u, hu, t, ht, hocc⟩)
      · exact absurd hocc (hno t ht)
      · intro hls
        have hmem : t ∈ linkScan terms (fun u => some (page u)) (extract_links m.payload) :=
          (mem_linkScan terms (fun u => some (page u)) (extract_links m.payload) t).mpr
            ⟨u, hu, page u, rfl, ht, (ciFind_iff t (page u)).mpr hocc⟩
        rw [hls] at hmem
        cases hmem

/-- C8: a failed link fetch is skipped and the scan continues with the
remaining links; when every fetch fails the message is classified on its
own text alone; and a mailbox whose every message is non-matching still
runs to normal completion (each such message is flagged for deletion, the
run never aborts on fetch errors). -/
theorem c8_fetch_errors_skipped (terms : List Txt) (fetch : Txt → Option Txt)
    (send : Txt → Bool) (m : Msg) (url : Txt) (rest : List Txt)
    (mbox : List MailMsg) :
    (fetch url = none → linkScan terms fetch (url :: rest) = linkScan terms fetch rest) ∧
    ((∀ u, fetch u = none) →
      msg_matches terms fetch m = (matchesPhase1 terms m).dedup) ∧
    ((∀ j mm, mbox.get? j = some mm →
        (msg_matches terms fetch mm.content).isEmpty = true) →
      ∃ final tr, main terms fetch send mbox = Outcome.ok final tr) := by
  refine ⟨fun h => by simp [linkScan, h], fun h => ?_, fun h => ?_⟩
  · cases hb : (matchesPhase1 terms m).isEmpty with
    | true =>
      have hnil : matchesPhase1 terms m = [] := List.isEmpty_iff.mp hb
      simp only [msg_matches, hb, if_true,
        linkScan_eq_nil_of_fetch_none terms fetch _ h, hnil]
      simp
    | false =>
      simp only [msg_matches, hb, Bool.false_eq_true, if_false]
  · obtain ⟨mbox', tr', hrun⟩ :=
      runLoop_ok_of_all_empty terms fetch send (selectIdxs mbox) mbox [] h
    refine ⟨List.filter (fun mm => !mm.deleted) mbox', tr' ++ [Event.expunge], ?_⟩
    simp only [main, hrun]

theorem c8_fetch_errors_skipped_witness :
    msg_matches wTerms wFetch wMsgB = (matchesPhase1 wTerms wMsgB).dedup ∧
    ∃ final tr, main wTerms wFetch wSend wMboxB = Outcome.ok final tr :=
  ⟨(c8_fetch_errors_skipped wTerms wFetch wSend wMsgB [] [] wMboxB).2.1
      (fun _ => rfl),
   (c8_fetch_errors_skipped wTerms wFetch wSend wMsgB [] [] wMboxB).2.2
      (by
        intro j mm hj
        cases j with
        | zero =>
          simp [wMboxB] at hj
          subst hj
          decide
        | succ n => simp [wMboxB] at hj)⟩

/-- C6: `send_telegram` delivers the composed alert truncated to its first
4096 characters, so the delivered payload never exceeds 4096 characters and
is a prefix of the composed text; the post succeeds exactly when the HTTP
send of that truncated payload succeeds. -/
theorem c6_payload_bounded (ms : List Txt) (m : Msg) (text : Txt) :
    (telegramPayload text).length ≤ 4096 ∧
    telegramPayload (alertText ms m) = (alertText ms m).take 4096 ∧
    (∃ rest, alertText ms m = telegramPayload (alertText ms m) ++ rest) ∧
    (∀ send t, send_telegram send t = Except.ok () ↔ send (telegramPayload t) = true) := by
  refine ⟨?_, rfl, ⟨(alertText ms m).drop 4096, (List.take_append_drop _ _).symm⟩, ?_⟩
  · simp only [telegramPayload]
    rw [List.length_take]
    exact Nat.min_le_left _ _
  · intro send t
    unfold send_telegram
    by_cases h : send (telegramPayload t) = true <;> simp [h]

end FbWatcher
